import Mathlib

/-!
Verification of the meta-gen repository: a shallow embedding in Lean 4 of the
batch metadata-generation pipeline (src/app/page.tsx), the keyword utilities
(src/lib/keywords.ts), the CSV exporter (src/lib/csv.ts) and the instruction
cache of the provider routes (src/app/api/generate/openai/route.ts and
src/app/api/generate/gemini/route.ts), together with theorems settling the
specification claims about them.
-/

namespace MetaGen

/-! ## Keyword utilities (src/lib/keywords.ts) -/

/-- Character-level model of the JS String split on a comma: accumulate the
current piece and cut at every comma. -/
def splitCommaGo : List Char → List Char → List String
  | [], cur => [String.mk cur.reverse]
  | c :: rest, cur =>
    if c = ',' then String.mk cur.reverse :: splitCommaGo rest []
    else splitCommaGo rest (c :: cur)

/-- Model of the JS input.split of a comma separator. -/
def jsSplitComma (s : String) : List String := splitCommaGo s.data []

/-- Character-level model of the JS String trim: drop leading and trailing
whitespace. -/
def jsTrim (s : String) : String :=
  String.mk (((s.data.dropWhile Char.isWhitespace).reverse.dropWhile
    Char.isWhitespace).reverse)

/-- Character-wise lowercase, modelling the JS toLowerCase on the ASCII
keywords this program handles. -/
def jsToLower (s : String) : String := String.mk (s.data.map Char.toLower)

/-- Embeds parseKeywords from src/lib/keywords.ts: split the input on commas,
trim each piece, and drop empty pieces.  The JS guard (input or empty string)
is the identity on actual strings. -/
def parseKeywords (input : String) : List String :=
  ((jsSplitComma input).map jsTrim).filter (fun s => s.length > 0)

/-- Embeds the loop body of cleanKeywords from src/lib/keywords.ts.  seen is
the set of lowercased keywords already kept, out the kept keywords in order.
A keyword is skipped when its lowercasing is in seen; otherwise it is pushed,
and the loop breaks as soon as out has reached targetCount entries. -/
def cleanGo (targetCount : Nat) : List String → List String → List String → List String
  | [], _, out => out
  | kw :: rest, seen, out =>
    let k := jsToLower kw
    if seen.contains k then cleanGo targetCount rest seen out
    else
      let out1 := out ++ [kw]
      if targetCount ≤ out1.length then out1
      else cleanGo targetCount rest (k :: seen) out1

/-- Embeds cleanKeywords from src/lib/keywords.ts: dedupe case-insensitively
with an early break once targetCount keywords are collected, then join with
a comma and a space. -/
def cleanKeywords (input : String) (targetCount : Nat) : String :=
  String.intercalate ", " (cleanGo targetCount (parseKeywords input) [] [])

/-- Written from the words of claim C5: keep the first occurrence of each
keyword up to case, preserving order and original casing. -/
def dedupeCI : List String → List String :=
  go []
where
  go (seen : List String) : List String → List String
    | [] => []
    | kw :: rest =>
      if seen.contains (jsToLower kw) then go seen rest
      else kw :: go (jsToLower kw :: seen) rest

/-- Written from the words of claim C5: parsed keywords, case-insensitive
dedupe keeping first occurrences, truncation to at most targetCount, joined
with a comma and a space. -/
def specCleanKeywords (input : String) (targetCount : Nat) : String :=
  String.intercalate ", " ((dedupeCI (parseKeywords input)).take targetCount)

lemma cleanGo_eq_dedupe (targetCount : Nat) (l : List String) :
    ∀ seen out, out.length < targetCount →
      cleanGo targetCount l seen out
        = out ++ (dedupeCI.go seen l).take (targetCount - out.length) := by
  induction l with
  | nil => intro seen out _; simp [cleanGo, dedupeCI.go]
  | cons kw rest ih =>
    intro seen out hlt
    simp only [cleanGo, dedupeCI.go, List.length_append, List.length_cons,
      List.length_nil, Nat.add_zero, Nat.zero_add]
    by_cases hseen : seen.contains (jsToLower kw)
    · rw [if_pos hseen, if_pos hseen]
      exact ih seen out hlt
    · rw [if_neg hseen, if_neg hseen]
      by_cases hfull : targetCount ≤ out.length + 1
      · have h1 : targetCount - out.length = 1 := by omega
        rw [if_pos hfull, h1, List.take_succ_cons, List.take_zero]
      · have hlt1 : out.length + 1 < targetCount := by omega
        have hrec := ih (jsToLower kw :: seen) (out ++ [kw]) (by simpa using hlt1)
        simp only [List.length_append, List.length_cons, List.length_nil,
          Nat.add_zero, Nat.zero_add] at hrec
        rw [if_neg hfull, hrec]
        have h2 : targetCount - out.length = (targetCount - (out.length + 1)) + 1 := by omega
        rw [h2, List.take_succ_cons, List.append_assoc]
        rfl

/-- C5 counterexample: at targetCount = 0 the code keeps the first keyword
(the break check runs only after the push), so the output is not truncated to
at most targetCount keywords as the claim states. -/
theorem c5_counterexample :
    cleanKeywords "cat" 0 = "cat" ∧ specCleanKeywords "cat" 0 = "" ∧
      cleanKeywords "cat" 0 ≠ specCleanKeywords "cat" 0 := by
  refine ⟨rfl, rfl, ?_⟩
  decide

/-- C5 (amended): for every input string and every targetCount of at least 1,
cleanKeywords returns the parsed keywords with case-insensitive duplicates
removed (keeping the first occurrence with its original casing), preserving
first-occurrence order, truncated to at most targetCount keywords, and joined
with a comma and a space. -/
theorem c5_cleanKeywords_amended (input : String) (targetCount : Nat)
    (h : 1 ≤ targetCount) :
    cleanKeywords input targetCount = specCleanKeywords input targetCount := by
  unfold cleanKeywords specCleanKeywords
  rw [cleanGo_eq_dedupe targetCount _ [] [] (by simpa using h)]
  simp [dedupeCI]

theorem c5_cleanKeywords_amended_witness :
    cleanKeywords "Cat, cat, dog, bird" 3 = specCleanKeywords "Cat, cat, dog, bird" 3 :=
  c5_cleanKeywords_amended "Cat, cat, dog, bird" 3 (by decide)

/-! ## Retry helper (withRetry in src/app/page.tsx)

A JS throw is modelled as an error value; the loop variable last can still be
undefined when tries is 0, so the rethrown value is an Option String with
none standing for undefined.  The sleeps field records the arguments of the
sleep calls in order, and attempts counts how many times fn was invoked. -/

structure RetryResult (A : Type) where
  result : Except (Option String) A
  sleeps : List Nat
  attempts : Nat

/-- Embeds the loop of withRetry: at attempt index t with fuel remaining
attempts, run fn; on success return, on failure sleep backoffMs * (t + 1)
when further attempts remain, otherwise rethrow the last error. -/
def withRetryGo (fn : Nat → Except String A) (backoffMs : Nat) :
    Nat → Nat → RetryResult A
  | _, 0 => ⟨.error none, [], 0⟩
  | t, fuel + 1 =>
    match fn t with
    | .ok a => ⟨.ok a, [], 1⟩
    | .error e =>
      if fuel = 0 then ⟨.error (some e), [], 1⟩
      else
        let r := withRetryGo fn backoffMs (t + 1) fuel
        ⟨r.result, backoffMs * (t + 1) :: r.sleeps, r.attempts + 1⟩

/-- Embeds withRetry from src/app/page.tsx: run fn up to tries times starting
at attempt index 0. -/
def withRetry (fn : Nat → Except String A) (tries backoffMs : Nat) :
    RetryResult A :=
  withRetryGo fn backoffMs 0 tries

/-- C2: with the default parameters tries = 3 and backoffMs = 600, at most 3
attempts are made, after the t-th failed attempt (t = 1, 2) the code sleeps
600 * t milliseconds, and when all 3 attempts fail the error of the last
attempt is rethrown. -/
theorem c2_withRetry_default (A : Type) (fn : Nat → Except String A) :
    (withRetry fn 3 600).attempts ≤ 3 ∧
    (withRetry fn 3 600).sleeps
      = (List.range ((withRetry fn 3 600).attempts - 1)).map (fun t => 600 * (t + 1)) ∧
    (∀ e0 e1 e2, fn 0 = .error e0 → fn 1 = .error e1 → fn 2 = .error e2 →
      (withRetry fn 3 600).result = .error (some e2)) := by
  rcases h0 : fn 0 with e0 | a0 <;> rcases h1 : fn 1 with e1 | a1 <;>
    rcases h2 : fn 2 with e2 | a2 <;>
      simp [withRetry, withRetryGo, h0, h1, h2, List.range_succ]

theorem c2_withRetry_default_witness :
    (withRetry (fun n => (Except.error (toString n) : Except String Nat)) 3 600).result
      = .error (some "2") :=
  (c2_withRetry_default Nat (fun n => Except.error (toString n))).2.2
    "0" "1" "2" rfl rfl rfl

/-! ## Data model (src/lib/types.ts) and per-file generation (src/app/page.tsx)

FileType and the records follow src/lib/types.ts; the assetType and video
fields are omitted because none of the code paths under verification (genOne,
regenerate, the exporters) ever set or read them. -/

inductive FileType where
  | photo | illustration | vector | icon | transparent_png | video
deriving DecidableEq, Repr

structure MetaOutput where
  title : String
  description : String
  keywords : String
  category : Option String
  releases : Option String
deriving DecidableEq, Repr

structure ItemMetaBox where
  id : String
  filename : String
  fileType : FileType
  createdAt : Nat
  thumbDataUrl : Option String
  meta : Option MetaOutput
  error : Option String
deriving DecidableEq, Repr

/-- The claimed invariant of the data model: generated metadata or an error
string, never both. -/
def metaErrorInv (it : ItemMetaBox) : Prop := it.meta = none ∨ it.error = none

instance : DecidablePred metaErrorInv := fun it =>
  inferInstanceAs (Decidable (it.meta = none ∨ it.error = none))

/-- JSON values, as produced by response json parsing. -/
inductive Jval where
  | jnull
  | jbool (b : Bool)
  | jnum (n : Int)
  | jstr (s : String)
  | jarr (elems : List Jval)
  | jobj (fields : List (String × Jval))

/-- Property access obj.k returning a string, or none when obj is not an
object, lacks the key, or holds a non-string there. -/
def jstrField (j : Jval) (k : String) : Option String :=
  match j with
  | .jobj fields =>
    match fields.lookup k with
    | some (.jstr s) => some s
    | _ => none
  | _ => none

/-- Embeds isValidMeta from src/app/page.tsx: the parsed value is an object
whose title, description and keywords properties are strings. -/
def isValidMeta (j : Jval) : Bool :=
  (jstrField j "title").isSome && (jstrField j "description").isSome &&
    (jstrField j "keywords").isSome

/-- Builds the fixed MetaOutput of genOne and regenerate: title and
description are taken from the parsed object, keywords are cleaned.  The getD
fallbacks are never hit because the callers first check isValidMeta. -/
def metaFromJval (j : Jval) (keywordsCount : Nat) : MetaOutput :=
  { title := (jstrField j "title").getD ""
    description := (jstrField j "description").getD ""
    keywords := cleanKeywords ((jstrField j "keywords").getD "") keywordsCount
    category := none
    releases := none }

/-- The JS message of a rethrown value: a missing value (undefined) prints as
the string undefined. -/
def jsErrMessage : Option String → String
  | some m => m
  | none => "undefined"

/-- The effect oracle of one per-file task: the id from nanoid, the clock,
the outcome of resizeImageToMax1024, the outcome of each fetch attempt (error
text of a non-ok response, or the response body), and the outcome of json
parsing of a body. -/
structure GenEnv where
  newId : String
  now : Nat
  resize : Except String String
  fetch : Nat → Except String String
  parse : String → Except String Jval

/-- The record built in the catch branch of genOne: error message only, no
thumbnail and no metadata. -/
def genErrBox (env : GenEnv) (filename : String) (ft : FileType) (msg : String) :
    ItemMetaBox :=
  { id := env.newId, filename := filename, fileType := ft, createdAt := env.now
    thumbDataUrl := none, meta := none, error := some msg }

/-- Embeds genOne from src/app/page.tsx: resize, fetch with withRetry (3
attempts, 600 ms backoff), parse the response json, validate its shape, clean
the keywords, and return the record; any failure is caught and stored as the
error message of the record. -/
def genOne (ft : FileType) (keywordsCount : Nat) (filename : String)
    (env : GenEnv) : ItemMetaBox :=
  match env.resize with
  | .error e => genErrBox env filename ft e
  | .ok dataUrl =>
    match (withRetry env.fetch 3 600).result with
    | .error e => genErrBox env filename ft (jsErrMessage e)
    | .ok body =>
      match env.parse body with
      | .error e => genErrBox env filename ft e
      | .ok j =>
        if isValidMeta j then
          { id := env.newId, filename := filename, fileType := ft
            createdAt := env.now, thumbDataUrl := some dataUrl
            meta := some (metaFromJval j keywordsCount), error := none }
        else genErrBox env filename ft "Model returned invalid JSON shape."

/-- Embeds regenerate from src/app/page.tsx: return unchanged when the item
has no truthy stored thumbnail; otherwise fetch with retry and parse as in
genOne.  On success the metadata is replaced and the error cleared; in the
catch branch only the error field is patched, the rest of the item is kept. -/
def regenerate (it : ItemMetaBox) (keywordsCount : Nat) (env : GenEnv) :
    ItemMetaBox :=
  if it.thumbDataUrl.getD "" = "" then it
  else
    match (withRetry env.fetch 3 600).result with
    | .error e => { it with error := some (jsErrMessage e) }
    | .ok body =>
      match env.parse body with
      | .error e => { it with error := some e }
      | .ok j =>
        if isValidMeta j then
          { it with meta := some (metaFromJval j keywordsCount), error := none }
        else { it with error := some "Model returned invalid JSON shape." }

/-- A Partial MetaOutput, as passed to patchItemMeta: only the present fields
overwrite. -/
structure MetaPatch where
  title : Option String
  description : Option String
  keywords : Option String

/-- The default object patchItemMeta spreads when the item has no metadata
yet. -/
def emptyMeta : MetaOutput :=
  { title := "", description := "", keywords := "", category := none
    releases := none }

/-- Embeds patchItemMeta from src/app/page.tsx: spread the patch over the
existing metadata (or the empty default), leaving every other field of the
item, the error included, unchanged. -/
def patchItemMeta (it : ItemMetaBox) (patch : MetaPatch) : ItemMetaBox :=
  { it with meta := some {
      title := patch.title.getD (it.meta.getD emptyMeta).title
      description := patch.description.getD (it.meta.getD emptyMeta).description
      keywords := patch.keywords.getD (it.meta.getD emptyMeta).keywords
      category := (it.meta.getD emptyMeta).category
      releases := (it.meta.getD emptyMeta).releases } }

/-- Embeds saveEdits from src/app/page.tsx: the current record is saved to
history unchanged. -/
def saveEdits (it : ItemMetaBox) : ItemMetaBox := it

/-- Embeds tidyKeywords from src/app/page.tsx: return unchanged when the
item has no metadata, otherwise replace the keywords with their cleaned
form and save. -/
def tidyKeywords (it : ItemMetaBox) (keywordsCount : Nat) : ItemMetaBox :=
  match it.meta with
  | none => it
  | some m =>
    { it with meta := some { m with keywords := cleanKeywords m.keywords keywordsCount } }

/-- A patch that only sets the keywords, as built by addKeyword and
onChipDrop. -/
def kwPatch (s : String) : MetaPatch :=
  { title := none, description := none, keywords := some s }

/-- Embeds addKeyword from src/app/page.tsx: trim the input, return
unchanged when it is empty or already present case-insensitively, otherwise
push it and patch the joined keywords. -/
def addKeyword (it : ItemMetaBox) (input : String) : ItemMetaBox :=
  if jsTrim input = "" then it
  else
    if ((parseKeywords ((it.meta.map MetaOutput.keywords).getD "")).map
        jsToLower).contains (jsToLower (jsTrim input)) then it
    else patchItemMeta it (kwPatch (String.intercalate ", "
      (parseKeywords ((it.meta.map MetaOutput.keywords).getD "")
        ++ [jsTrim input])))

/-- The two splices of onChipDrop: remove the element at fromIdx, then
insert it back at toIdx. -/
def moveKeyword (arr : List String) (fromIdx toIdx : Nat) : List String :=
  match arr.get? fromIdx with
  | none => arr
  | some moved =>
    (arr.take fromIdx ++ arr.drop (fromIdx + 1)).take toIdx
      ++ moved :: (arr.take fromIdx ++ arr.drop (fromIdx + 1)).drop toIdx

/-- Embeds onChipDrop from src/app/page.tsx: return unchanged when the item
has no metadata or an index is out of bounds, otherwise move the dragged
keyword and patch the joined result. -/
def onChipDrop (it : ItemMetaBox) (fromIdx toIdx : Nat) : ItemMetaBox :=
  match it.meta with
  | none => it
  | some m =>
    if fromIdx < (parseKeywords m.keywords).length
        ∧ toIdx < (parseKeywords m.keywords).length then
      patchItemMeta it (kwPatch (String.intercalate ", "
        (moveKeyword (parseKeywords m.keywords) fromIdx toIdx)))
    else it

/-- An oracle under which a generation succeeds: fetch answers at once with a
body that parses to a valid metadata object. -/
def envOkExample : GenEnv :=
  { newId := "id-ok", now := 10
    resize := .ok "data:image/jpeg;base64,xyz"
    fetch := fun _ => .ok "body"
    parse := fun _ => .ok (.jobj
      [("title", .jstr "A title"), ("description", .jstr "A description"),
       ("keywords", .jstr "cat, dog")]) }

/-- An oracle under which every fetch attempt fails with a network error. -/
def envFailExample : GenEnv :=
  { newId := "id-fail", now := 11
    resize := .ok "data:image/jpeg;base64,xyz"
    fetch := fun _ => .error "network down"
    parse := fun _ => .error "unreachable" }

/-- C1 counterexample: a batch-generated record with metadata whose
regeneration fails keeps the metadata and gains an error string, so the
record holds both and the claimed invariant is violated. -/
theorem c1_counterexample :
    ¬ metaErrorInv (regenerate (genOne .photo 5 "a.jpg" envOkExample) 5 envFailExample) := by
  decide

/-- C1 (amended): a record created by batch generation has generated metadata
or an error string, never both.  Among the edit operations, saveEdits stores
the record unchanged, tidyKeywords preserves the invariant, and
patchItemMeta, addKeyword and onChipDrop preserve it on every record without
an error string, the only records the UI offers for editing.  Regenerating a
record without metadata preserves the invariant; and a regeneration that
violates it is necessarily a failed regeneration of a record that already has
metadata, which keeps the old metadata and sets the error alongside it. -/
theorem c1_meta_error_invariant_amended :
    (∀ ft kc filename env, metaErrorInv (genOne ft kc filename env)) ∧
    (∀ it, metaErrorInv it → metaErrorInv (saveEdits it)) ∧
    (∀ it kc, metaErrorInv it → metaErrorInv (tidyKeywords it kc)) ∧
    (∀ it patch, it.error = none → metaErrorInv (patchItemMeta it patch)) ∧
    (∀ it input, it.error = none → metaErrorInv (addKeyword it input)) ∧
    (∀ it fromIdx toIdx, it.error = none →
      metaErrorInv (onChipDrop it fromIdx toIdx)) ∧
    (∀ it kc env, it.meta = none → metaErrorInv (regenerate it kc env)) ∧
    (∀ it kc env, ¬ metaErrorInv (regenerate it kc env) →
      (regenerate it kc env).meta = it.meta ∧ it.meta ≠ none ∧
        (regenerate it kc env).error ≠ none) := by
  refine ⟨?_, ?_, ?_, ?_, ?_, ?_, ?_, ?_⟩
  · intro ft kc filename env
    unfold genOne metaErrorInv genErrBox
    split
    · exact Or.inl rfl
    · split
      · exact Or.inl rfl
      · split
        · exact Or.inl rfl
        · split
          · exact Or.inr rfl
          · exact Or.inl rfl
  · intro it h
    exact h
  · intro it kc h
    unfold tidyKeywords metaErrorInv
    split
    · exact h
    · next m hm =>
      rcases h with h | h
      · rw [hm] at h
        exact Option.noConfusion h
      · exact Or.inr h
  · intro it patch herr
    unfold patchItemMeta metaErrorInv
    exact Or.inr herr
  · intro it input herr
    unfold addKeyword metaErrorInv
    split
    · exact Or.inr herr
    · split
      · exact Or.inr herr
      · exact Or.inr herr
  · intro it fromIdx toIdx herr
    unfold onChipDrop metaErrorInv
    split
    · exact Or.inr herr
    · split
      · exact Or.inr herr
      · exact Or.inr herr
  · intro it kc env hmeta
    unfold regenerate metaErrorInv
    split
    · exact Or.inl hmeta
    · split
      · exact Or.inl hmeta
      · split
        · exact Or.inl hmeta
        · split
          · exact Or.inr rfl
          · exact Or.inl hmeta
  · intro it kc env hviol
    unfold metaErrorInv at hviol
    push_neg at hviol
    unfold regenerate at hviol ⊢
    revert hviol
    split
    · intro hviol; exact ⟨rfl, hviol.1, hviol.2⟩
    · split
      · intro hviol; exact ⟨rfl, hviol.1, by simp⟩
      · split
        · intro hviol; exact ⟨rfl, hviol.1, by simp⟩
        · split
          · intro hviol; exact absurd rfl hviol.2
          · intro hviol; exact ⟨rfl, hviol.1, by simp⟩

theorem c1_meta_error_invariant_amended_witness :
    metaErrorInv (regenerate
      { id := "i", filename := "f", fileType := .photo, createdAt := 0
        thumbDataUrl := some "data:image/jpeg;base64,xyz", meta := none
        error := some "old error" } 5 envFailExample) :=
  c1_meta_error_invariant_amended.2.2.2.2.2.2.1 _ 5 envFailExample rfl

/-! ## Bounded concurrency (pLimit in src/app/page.tsx)

The event-driven runner is modelled as a state machine.  A state carries the
concurrency argument, the value each task settles with (tasks are genOne
calls, which never reject), the counters next and active of the source, the
shared results array ret (undefined slots as none), and whether the promise
has been resolved.  The run closure is the inner while loop; settling of an
in-flight task is the then/finally handler pair: store the result, decrement
active, then either resolve or run again.  Reachable states are the initial
state and anything a settle event produces. -/

structure PState (T : Type) where
  conc : Nat
  taskRes : List T
  next : Nat
  active : Nat
  ret : List (Option T)
  resolved : Bool
deriving DecidableEq

/-- The while loop of the run closure: while active is below the concurrency
and tasks remain, start the next task.  The fuel is the number of unstarted
tasks, which bounds the iterations. -/
def runLoopGo (conc total : Nat) : Nat → Nat → Nat → Nat × Nat
  | 0, next, active => (next, active)
  | fuel + 1, next, active =>
    if active < conc ∧ next < total then runLoopGo conc total fuel (next + 1) (active + 1)
    else (next, active)

/-- The run closure acting on a state: only next and active change. -/
def runLoop (s : PState T) : PState T :=
  let p := runLoopGo s.conc s.taskRes.length (s.taskRes.length - s.next)
    s.next s.active
  { s with next := p.1, active := p.2 }

/-- The state right after pLimit built ret and called run for the first
time. -/
def pInit (conc : Nat) (taskRes : List T) : PState T :=
  runLoop { conc := conc, taskRes := taskRes, next := 0, active := 0
            ret := List.replicate taskRes.length none, resolved := false }

/-- Task idx has been started but has not settled yet. -/
def inFlight (s : PState T) (idx : Nat) : Prop :=
  idx < s.next ∧ s.ret.get? idx = some none

instance {T : Type} [DecidableEq T] (s : PState T) (idx : Nat) :
    Decidable (inFlight s idx) :=
  inferInstanceAs (Decidable (_ ∧ _))

/-- The number of settled tasks: the filled slots of ret. -/
def settledCount (s : PState T) : Nat := s.ret.countP Option.isSome

/-- The finally handler after the result write and the active decrement:
resolve when everything is done, otherwise run the while loop again. -/
def settleFin (s1 : PState T) : PState T :=
  if s1.next = s1.taskRes.length ∧ s1.active = 0 then { s1 with resolved := true }
  else runLoop s1

/-- The then/finally handlers of task idx settling: write the result into
ret, decrement active, then resolve or start further tasks. -/
def settle (s : PState T) (idx : Nat) : PState T :=
  settleFin
    { s with ret := s.ret.set idx (s.taskRes.get? idx), active := s.active - 1 }

/-- The states a pLimit run can be in: the initial state, and the successor
of any reachable state by the settling of an in-flight task. -/
inductive Reach (conc : Nat) (taskRes : List T) : PState T → Prop where
  | init : Reach conc taskRes (pInit conc taskRes)
  | step : ∀ {s idx}, Reach conc taskRes s → inFlight s idx →
      Reach conc taskRes (settle s idx)

lemma runLoopGo_active_le (conc total : Nat) :
    ∀ fuel next active, active ≤ conc →
      (runLoopGo conc total fuel next active).2 ≤ conc := by
  intro fuel
  induction fuel with
  | zero => intro next active h; exact h
  | succ n ih =>
    intro next active h
    unfold runLoopGo
    split
    · next hc => exact ih (next + 1) (active + 1) hc.1
    · exact h

lemma runLoopGo_active_ge (conc total : Nat) :
    ∀ fuel next active, active ≤ (runLoopGo conc total fuel next active).2 := by
  intro fuel
  induction fuel with
  | zero => intro next active; exact le_refl _
  | succ n ih =>
    intro next active
    unfold runLoopGo
    split
    · exact le_trans (Nat.le_succ _) (ih (next + 1) (active + 1))
    · exact le_refl _

lemma runLoopGo_next_le (conc total : Nat) :
    ∀ fuel next active, next ≤ total →
      (runLoopGo conc total fuel next active).1 ≤ total := by
  intro fuel
  induction fuel with
  | zero => intro next active h; exact h
  | succ n ih =>
    intro next active h
    unfold runLoopGo
    split
    · next hc => exact ih (next + 1) (active + 1) hc.2
    · exact h

lemma runLoopGo_sum (conc total : Nat) :
    ∀ fuel next active,
      (runLoopGo conc total fuel next active).1 + active
        = next + (runLoopGo conc total fuel next active).2 := by
  intro fuel
  induction fuel with
  | zero => intro next active; rfl
  | succ n ih =>
    intro next active
    unfold runLoopGo
    split
    · have := ih (next + 1) (active + 1)
      omega
    · rfl

lemma runLoopGo_active_pos (conc total : Nat) :
    ∀ fuel next active,
      0 < active ∨ (active < conc ∧ next < total ∧ 0 < fuel) →
      0 < (runLoopGo conc total fuel next active).2 := by
  intro fuel
  induction fuel with
  | zero =>
    intro next active h
    rcases h with h | h
    · exact h
    · omega
  | succ n ih =>
    intro next active h
    unfold runLoopGo
    split
    · exact lt_of_lt_of_le (Nat.succ_pos active)
        (runLoopGo_active_ge conc total n (next + 1) (active + 1))
    · next hc =>
      rcases h with h | h
      · exact h
      · exact absurd ⟨h.1, h.2.1⟩ hc

lemma get?_replicate_none {T : Type} :
    ∀ (n i : Nat), i < n → (List.replicate n (none : Option T)).get? i = some none := by
  intro n
  induction n with
  | zero => intro i h; omega
  | succ m ih =>
    intro i h
    cases i with
    | zero => rfl
    | succ k => exact ih k (by omega)

lemma countP_replicate_none {T : Type} :
    ∀ n : Nat, (List.replicate n (none : Option T)).countP Option.isSome = 0 := by
  intro n
  induction n with
  | zero => rfl
  | succ m ih => simp [List.replicate_succ, List.countP_cons, ih]

lemma countP_set_some {T : Type} :
    ∀ (l : List (Option T)) (i : Nat) (v : Option T),
      l.get? i = some none → v.isSome = true →
      (l.set i v).countP Option.isSome = l.countP Option.isSome + 1 := by
  intro l
  induction l with
  | nil => intro i v h _; simp at h
  | cons a tl ih =>
    intro i v h hv
    cases i with
    | zero =>
      have ha : a = none := by simpa using h
      simp [ha, List.countP_cons, hv]
    | succ k =>
      have := ih k v (by simpa using h) hv
      simp [List.countP_cons, this]
      omega

lemma countP_lt_of_mem_none {T : Type} :
    ∀ l : List (Option T), (none : Option T) ∈ l →
      l.countP Option.isSome < l.length := by
  intro l
  induction l with
  | nil => intro h; simp at h
  | cons a tl ih =>
    intro h
    rcases List.mem_cons.mp h with h | h
    · have : Option.isSome a = false := by rw [← h]; rfl
      simp [List.countP_cons, this]
      exact Nat.lt_succ_of_le (List.countP_le_length _)
    · have := ih h
      simp [List.countP_cons]
      split <;> omega

/-- Settled slots sit strictly below next as long as some task is in flight:
the slot of the in-flight task is started but unfilled. -/
lemma settledCount_lt_next {T : Type} {s : PState T} {idx : Nat}
    (hf : inFlight s idx)
    (hunset : ∀ i, s.next ≤ i → i < s.ret.length → s.ret.get? i = some none)
    (hnextle : s.next ≤ s.ret.length) :
    settledCount s < s.next := by
  obtain ⟨hidx, hret⟩ := hf
  have hsplit := List.take_append_drop s.next s.ret
  have hcount : settledCount s
      = (s.ret.take s.next).countP Option.isSome
        + (s.ret.drop s.next).countP Option.isSome := by
    unfold settledCount
    conv_lhs => rw [← hsplit]
    exact List.countP_append _ _ _
  have hdrop : (s.ret.drop s.next).countP Option.isSome = 0 := by
    apply Nat.eq_zero_of_le_zero
    apply Nat.le_of_lt_succ
    rcases Nat.eq_zero_or_pos ((s.ret.drop s.next).countP Option.isSome) with h | h
    · omega
    · exfalso
      have hex : ∃ x ∈ s.ret.drop s.next, Option.isSome x = true := by
        by_contra hall
        push_neg at hall
        have : (s.ret.drop s.next).countP Option.isSome = 0 :=
          List.countP_eq_zero.mpr (by
            intro x hx
            simpa using hall x hx)
        omega
      obtain ⟨x, hxmem, hxsome⟩ := hex
      obtain ⟨j, hj⟩ := List.mem_iff_get?.mp hxmem
      rw [List.get?_drop] at hj
      have hjlt : s.next + j < s.ret.length := by
        by_contra hge
        push_neg at hge
        rw [List.get?_len_le hge] at hj
        exact Option.noConfusion hj
      have := hunset (s.next + j) (Nat.le_add_right _ _) hjlt
      rw [this] at hj
      have : x = none := by injection hj with h; exact h.symm
      rw [this] at hxsome
      simp at hxsome
  have htake : (s.ret.take s.next).countP Option.isSome < s.next := by
    have hmem : (none : Option T) ∈ s.ret.take s.next := by
      apply List.get?_mem (n := idx)
      rw [List.get?_take hidx]
      exact hret
    have := countP_lt_of_mem_none _ hmem
    have hlen : (s.ret.take s.next).length = s.next := by
      rw [List.length_take]
      omega
    omega
  omega

/-- The inductive invariant of a pLimit run. -/
structure PInv (conc : Nat) (taskRes : List T) (s : PState T) : Prop where
  conc_eq : s.conc = conc
  tasks_eq : s.taskRes = taskRes
  next_le : s.next ≤ taskRes.length
  ret_len : s.ret.length = taskRes.length
  active_le : s.active ≤ conc
  count_eq : settledCount s + s.active = s.next
  unsettled_hi : ∀ i, s.next ≤ i → i < taskRes.length → s.ret.get? i = some none
  settled_val : ∀ i v, s.ret.get? i = some (some v) → taskRes.get? i = some v
  resolved_done : s.resolved = true → s.next = taskRes.length ∧ s.active = 0
  progress : s.resolved = false → 0 < conc → 0 < taskRes.length → 0 < s.active

lemma runLoop_ret (s : PState T) : (runLoop s).ret = s.ret := rfl

lemma runLoop_resolved (s : PState T) : (runLoop s).resolved = s.resolved := rfl

lemma settle_ret (s : PState T) (idx : Nat) :
    (settle s idx).ret = s.ret.set idx (s.taskRes.get? idx) := by
  unfold settle settleFin
  split <;> rfl

lemma settle_conc (s : PState T) (idx : Nat) : (settle s idx).conc = s.conc := by
  unfold settle settleFin
  split <;> rfl

lemma settle_taskRes (s : PState T) (idx : Nat) :
    (settle s idx).taskRes = s.taskRes := by
  unfold settle settleFin
  split <;> rfl

lemma pInv_init (conc : Nat) (taskRes : List T) :
    PInv conc taskRes (pInit conc taskRes) := by
  have hsum := runLoopGo_sum conc taskRes.length (taskRes.length - 0) 0 0
  refine ⟨rfl, rfl, ?_, ?_, ?_, ?_, ?_, ?_, ?_, ?_⟩
  · exact runLoopGo_next_le _ _ _ _ _ (Nat.zero_le _)
  · simp [pInit, runLoop, List.length_replicate]
  · exact runLoopGo_active_le _ _ _ _ _ (Nat.zero_le _)
  · have hset : settledCount (pInit conc taskRes) = 0 := by
      unfold settledCount pInit
      rw [runLoop_ret]
      exact countP_replicate_none _
    rw [hset]
    unfold pInit runLoop
    simpa using hsum.symm
  · intro i _ hlt
    unfold pInit runLoop
    exact get?_replicate_none _ _ hlt
  · intro i v h
    unfold pInit runLoop at h
    simp only at h
    by_cases hi : i < taskRes.length
    · rw [get?_replicate_none _ _ hi] at h
      exact absurd (Option.some.inj h) (by simp)
    · rw [List.get?_len_le (by simp; omega)] at h
      exact Option.noConfusion h
  · intro h
    exact absurd h (by simp [pInit, runLoop])
  · intro _ hc ht
    show 0 < (runLoopGo conc taskRes.length (taskRes.length - 0) 0 0).2
    apply runLoopGo_active_pos
    right
    exact ⟨hc, ht, by omega⟩

lemma pInv_settle {conc : Nat} {taskRes : List T} {s : PState T} {idx : Nat}
    (hs : PInv conc taskRes s) (hf : inFlight s idx) :
    PInv conc taskRes (settle s idx) := by
  obtain ⟨hconc, htasks, hnextle, hretlen, hactle, hcount, hunset, hsval,
    hresdone, hprog⟩ := hs
  subst hconc
  subst htasks
  obtain ⟨hidxnext, hidxret⟩ := hf
  have hidxretlen : idx < s.ret.length := by
    rcases List.get?_eq_some.mp hidxret with ⟨h, _⟩
    exact h
  have hidxtask : idx < s.taskRes.length := by omega
  obtain ⟨v, hv⟩ : ∃ v, s.taskRes.get? idx = some v :=
    ⟨_, List.get?_eq_get hidxtask⟩
  have hactpos : 0 < s.active := by
    have hlt := settledCount_lt_next ⟨hidxnext, hidxret⟩
      (fun i h1 h2 => hunset i h1 (by omega)) (by omega)
    omega
  have hresfalse : s.resolved = false := by
    cases hres : s.resolved
    · rfl
    · have := hresdone hres
      omega
  have hcount1 : (s.ret.set idx (s.taskRes.get? idx)).countP Option.isSome
      = settledCount s + 1 := by
    rw [hv]
    exact countP_set_some s.ret idx (some v) hidxret rfl
  have hget_hi : ∀ i, s.next ≤ i → i < s.taskRes.length →
      (s.ret.set idx (s.taskRes.get? idx)).get? i = some none := by
    intro i h1 h2
    rw [List.get?_set, if_neg (by omega : ¬ idx = i)]
    exact hunset i h1 h2
  have hsval1 : ∀ i w,
      (s.ret.set idx (s.taskRes.get? idx)).get? i = some (some w) →
      s.taskRes.get? i = some w := by
    intro i w h
    rw [List.get?_set] at h
    by_cases hii : idx = i
    · subst hii
      rw [hidxret] at h
      simp only [Option.map_some] at h
      exact Option.some.inj h
    · rw [if_neg hii] at h
      exact hsval i w h
  unfold settle settleFin
  split
  · next hdone =>
    dsimp only at hdone ⊢
    refine ⟨rfl, rfl, hnextle, ?_, ?_, ?_, hget_hi, hsval1, ?_, ?_⟩
    · show (s.ret.set idx (s.taskRes.get? idx)).length = s.taskRes.length
      rw [List.length_set]
      exact hretlen
    · show s.active - 1 ≤ s.conc
      omega
    · show (s.ret.set idx (s.taskRes.get? idx)).countP Option.isSome
        + (s.active - 1) = s.next
      omega
    · intro _
      exact ⟨hdone.1, hdone.2⟩
    · intro h
      exact absurd h (by simp)
  · next hndone =>
    have hsum := runLoopGo_sum s.conc s.taskRes.length
      (s.taskRes.length - s.next) s.next (s.active - 1)
    have hge := runLoopGo_active_ge s.conc s.taskRes.length
      (s.taskRes.length - s.next) s.next (s.active - 1)
    dsimp only [runLoop] at hndone ⊢
    refine ⟨rfl, rfl, ?_, ?_, ?_, ?_, ?_, hsval1, ?_, ?_⟩
    · exact runLoopGo_next_le _ _ _ _ _ hnextle
    · show (s.ret.set idx (s.taskRes.get? idx)).length = s.taskRes.length
      rw [List.length_set]
      exact hretlen
    · exact runLoopGo_active_le _ _ _ _ _ (by omega)
    · show (s.ret.set idx (s.taskRes.get? idx)).countP Option.isSome
        + (runLoopGo s.conc s.taskRes.length (s.taskRes.length - s.next)
            s.next (s.active - 1)).2
        = (runLoopGo s.conc s.taskRes.length (s.taskRes.length - s.next)
            s.next (s.active - 1)).1
      omega
    · intro i h1 h2
      replace h1 : (runLoopGo s.conc s.taskRes.length (s.taskRes.length - s.next)
        s.next (s.active - 1)).1 ≤ i := h1
      replace h2 : i < s.taskRes.length := h2
      apply hget_hi i _ h2
      omega
    · intro h
      replace h : s.resolved = true := h
      exact absurd h (by simp [hresfalse])
    · intro _ hc ht
      show 0 < (runLoopGo s.conc s.taskRes.length (s.taskRes.length - s.next)
        s.next (s.active - 1)).2
      apply runLoopGo_active_pos
      by_cases hact1 : 0 < s.active - 1
      · exact Or.inl hact1
      · right
        have hne : ¬ (s.next = s.taskRes.length ∧ s.active - 1 = 0) := hndone
        have : s.next < s.taskRes.length := by omega
        exact ⟨by omega, this, by omega⟩

/-- Every reachable state of a pLimit run satisfies the invariant. -/
lemma reach_inv {conc : Nat} {taskRes : List T} {s : PState T}
    (h : Reach conc taskRes s) : PInv conc taskRes s := by
  induction h with
  | init => exact pInv_init conc taskRes
  | step _ hf ih => exact pInv_settle ih hf

/-- Embeds the guard clauses and the pLimit invocation of runGeneration from
src/app/page.tsx: return early (none) when no files are selected or the api
key is empty; otherwise map each selected file to a genOne task and invoke
pLimit with concurrency 4.  The value is the initial state of that pLimit
run; each file is paired with the effect oracle of its task. -/
def runGeneration (files : List (String × GenEnv)) (apiKey : String)
    (ft : FileType) (keywordsCount : Nat) : Option (PState ItemMetaBox) :=
  if files.length = 0 then none
  else if apiKey = "" then none
  else some (pInit 4 (files.map (fun fe => genOne ft keywordsCount fe.1 fe.2)))

/-- C3: in every reachable state of a pLimit run the number of started but
unsettled tasks (active) never exceeds the concurrency argument, a task
beyond the cap is started only after a started task settles (next stays
within settled plus the cap), and the batch pipeline always invokes pLimit
with concurrency 4. -/
theorem c3_concurrency_bound {T : Type} (conc : Nat) (taskRes : List T)
    (s : PState T) (h : Reach conc taskRes s) :
    s.active ≤ conc ∧ s.next ≤ settledCount s + conc ∧
    (∀ files apiKey ft kc s0,
      runGeneration files apiKey ft kc = some s0 → s0.conc = 4) := by
  have inv := reach_inv h
  refine ⟨inv.active_le, ?_, ?_⟩
  · have h1 := inv.count_eq
    have h2 := inv.active_le
    omega
  · intro files apiKey ft kc s0 h0
    unfold runGeneration at h0
    by_cases h1 : files.length = 0
    · rw [if_pos h1] at h0
      exact Option.noConfusion h0
    · rw [if_neg h1] at h0
      by_cases h2 : apiKey = ""
      · rw [if_pos h2] at h0
        exact Option.noConfusion h0
      · rw [if_neg h2] at h0
        rw [← Option.some.inj h0]
        rfl

theorem c3_concurrency_bound_witness :
    (pInit 2 [5, 6, 7]).active ≤ 2 :=
  (c3_concurrency_bound 2 [5, 6, 7] (pInit 2 [5, 6, 7]) Reach.init).1

/-- In a resolved reachable state the results array is fully filled, with the
result of task i at index i. -/
lemma resolved_positions {T : Type} (conc : Nat) (taskRes : List T)
    (s : PState T) (h : Reach conc taskRes s) (hres : s.resolved = true) :
    s.ret.length = taskRes.length ∧
    ∀ i, i < taskRes.length → s.ret.get? i = some (taskRes.get? i) := by
  have inv := reach_inv h
  have hdone := inv.resolved_done hres
  have hfull : settledCount s = taskRes.length := by
    have := inv.count_eq
    omega
  have hall : ∀ x ∈ s.ret, Option.isSome x = true := by
    apply List.countP_eq_length.mp
    show settledCount s = s.ret.length
    rw [inv.ret_len]
    exact hfull
  refine ⟨inv.ret_len, ?_⟩
  intro i hi
  have hi2 : i < s.ret.length := by rw [inv.ret_len]; exact hi
  obtain ⟨x, hx⟩ : ∃ x, s.ret.get? i = some x := ⟨_, List.get?_eq_get hi2⟩
  have hxs := hall x (List.get?_mem hx)
  obtain ⟨w, hw⟩ := Option.isSome_iff_exists.mp hxs
  subst hw
  have hval := inv.settled_val i w hx
  rw [hx, hval]

/-- C9: when a pLimit run over a task list whose tasks all settle resolves,
the array it resolves with has, at every index i, the result of task i:
result positions match input positions regardless of completion order. -/
theorem c9_pLimit_positions {T : Type} (conc : Nat) (taskRes : List T)
    (s : PState T) (h : Reach conc taskRes s) (hres : s.resolved = true) :
    s.ret.length = taskRes.length ∧
    ∀ i, i < taskRes.length → s.ret.get? i = some (taskRes.get? i) :=
  resolved_positions conc taskRes s h hres

theorem c9_pLimit_positions_witness :
    (settle (pInit 4 [7]) 0).ret.get? 0 = some (([7] : List Nat).get? 0) :=
  (c9_pLimit_positions 4 [7] (settle (pInit 4 [7]) 0)
    (Reach.step Reach.init (by decide)) (by decide)).2 0 (by decide)

/-- C10: a pLimit run over an empty task list never resolves (resolution is
reachable only through the settling of a task, and no task exists); the sole
caller returns early when no files are selected, so every invocation it makes
has a non-empty task list; and a run over a non-empty task list has resolved
as soon as all of its tasks have settled. -/
theorem c10_empty_never_resolves {T : Type} :
    (∀ (conc : Nat) (s : PState T), Reach conc ([] : List T) s →
      s.resolved = false) ∧
    (∀ files apiKey ft kc s0, runGeneration files apiKey ft kc = some s0 →
      0 < files.length ∧ s0.taskRes.length = files.length) ∧
    (∀ (conc : Nat) (taskRes : List T) (s : PState T), Reach conc taskRes s →
      0 < conc → 0 < taskRes.length → settledCount s = taskRes.length →
      s.resolved = true) := by
  refine ⟨?_, ?_, ?_⟩
  · intro conc s h
    induction h with
    | init => rfl
    | step hr hf ih =>
      exfalso
      have inv := reach_inv hr
      have h1 := inv.next_le
      have h2 := hf.1
      simp only [List.length_nil] at h1
      omega
  · intro files apiKey ft kc s0 h0
    unfold runGeneration at h0
    by_cases h1 : files.length = 0
    · rw [if_pos h1] at h0
      exact Option.noConfusion h0
    · rw [if_neg h1] at h0
      by_cases h2 : apiKey = ""
      · rw [if_pos h2] at h0
        exact Option.noConfusion h0
      · rw [if_neg h2] at h0
        rw [← Option.some.inj h0]
        refine ⟨by omega, ?_⟩
        show (files.map _).length = files.length
        exact List.length_map _ _
  · intro conc taskRes s h hc ht hset
    have inv := reach_inv h
    cases hres : s.resolved
    · exfalso
      have hact := inv.progress hres hc ht
      have h1 := inv.count_eq
      have h2 := inv.next_le
      omega
    · rfl

theorem c10_empty_never_resolves_witness :
    (pInit 4 ([] : List Nat)).resolved = false :=
  c10_empty_never_resolves.1 4 (pInit 4 []) Reach.init

/-- Models Math.round((done / total) * 100) of the progress callback with
exact rational arithmetic: round(x) is the floor of x + 1/2, and
100 * done / total + 1/2 = (200 * done + total) / (2 * total). -/
def jsProgress (done total : Nat) : Nat := (200 * done + total) / (2 * total)

/-- C8: when an in-flight task of a reachable batch state settles, the shared
results array gains exactly that task result at that task index and no other
slot changes, the settled count the progress callback reports grows by one,
and the progress percentage jsProgress never decreases. -/
theorem c8_results_and_progress {T : Type} (conc : Nat) (taskRes : List T)
    (s : PState T) (idx : Nat) (h : Reach conc taskRes s)
    (hf : inFlight s idx) :
    (settle s idx).ret.get? idx = some (s.taskRes.get? idx) ∧
    (∀ j, j ≠ idx → (settle s idx).ret.get? j = s.ret.get? j) ∧
    settledCount (settle s idx) = settledCount s + 1 ∧
    jsProgress (settledCount s) s.taskRes.length
      ≤ jsProgress (settledCount (settle s idx)) s.taskRes.length := by
  have inv := reach_inv h
  have hidxtask : idx < s.taskRes.length := by
    have h1 := inv.next_le
    have h2 := hf.1
    have h3 := inv.tasks_eq
    rw [h3]
    omega
  obtain ⟨v, hv⟩ : ∃ v, s.taskRes.get? idx = some v :=
    ⟨_, List.get?_eq_get hidxtask⟩
  have hcount : settledCount (settle s idx) = settledCount s + 1 := by
    unfold settledCount
    rw [settle_ret, hv]
    exact countP_set_some s.ret idx (some v) hf.2 rfl
  refine ⟨?_, ?_, hcount, ?_⟩
  · rw [settle_ret, List.get?_set, if_pos rfl, hf.2]
    rfl
  · intro j hj
    rw [settle_ret, List.get?_set, if_neg (fun hh => hj hh.symm)]
  · rw [hcount]
    unfold jsProgress
    apply Nat.div_le_div_right
    omega

theorem c8_results_and_progress_witness :
    (settle (pInit 2 [3, 4]) 0).ret.get? 0
      = some ((pInit 2 [3, 4]).taskRes.get? 0) :=
  (c8_results_and_progress 2 [3, 4] (pInit 2 [3, 4]) 0 Reach.init (by decide)).1

/-- The message of the first step of a per-file task that throws, when one
does: the resize error, the error rethrown by withRetry, the json parse
error, or the invalid-shape message.  This mirrors the try block of genOne
step by step. -/
def genFailure (env : GenEnv) : Option String :=
  match env.resize with
  | .error e => some e
  | .ok _ =>
    match (withRetry env.fetch 3 600).result with
    | .error e => some (jsErrMessage e)
    | .ok body =>
      match env.parse body with
      | .error e => some e
      | .ok j => if isValidMeta j then none else some "Model returned invalid JSON shape."

/-- C4: any per-file failure is caught inside the task and recorded as the
message string in the error field of that file record (with no metadata), and
a resolved batch holds exactly one record per input file, the record of file
i at index i. -/
theorem c4_per_item_failure_isolation (ft : FileType) (kc : Nat)
    (files : List (String × GenEnv)) (s : PState ItemMetaBox)
    (h : Reach 4 (files.map fun fe => genOne ft kc fe.1 fe.2) s)
    (hres : s.resolved = true) :
    s.ret.length = files.length ∧
    (∀ i fe, files.get? i = some fe →
      s.ret.get? i = some (some (genOne ft kc fe.1 fe.2))) ∧
    (∀ filename env m, genFailure env = some m →
      (genOne ft kc filename env).error = some m ∧
        (genOne ft kc filename env).meta = none) := by
  obtain ⟨hlen, hpos⟩ := resolved_positions 4 _ s h hres
  refine ⟨by rw [hlen]; exact List.length_map _ _, ?_, ?_⟩
  · intro i fe hfe
    obtain ⟨hi, _⟩ := List.get?_eq_some.mp hfe
    have hi2 : i < (files.map fun fe => genOne ft kc fe.1 fe.2).length := by
      rw [List.length_map]
      exact hi
    rw [hpos i hi2, List.get?_map, hfe]
    rfl
  · intro filename env m
    unfold genFailure genOne genErrBox
    split
    · intro hm
      exact ⟨hm, rfl⟩
    · split
      · intro hm
        exact ⟨hm, rfl⟩
      · split
        · intro hm
          exact ⟨hm, rfl⟩
        · split
          · intro hm
            exact Option.noConfusion hm
          · intro hm
            exact ⟨hm, rfl⟩

theorem c4_per_item_failure_isolation_witness :
    (genOne .photo 5 "a.jpg" envFailExample).error = some "network down" ∧
      (genOne .photo 5 "a.jpg" envFailExample).meta = none :=
  (c4_per_item_failure_isolation .photo 5 [("a.jpg", envFailExample)]
    (settle (pInit 4 ([("a.jpg", envFailExample)].map
      (fun fe => genOne .photo 5 fe.1 fe.2))) 0)
    (Reach.step Reach.init (by decide)) (by decide)).2.2
    "a.jpg" envFailExample "network down" rfl

/-! ## Instruction cache of the provider routes
(src/app/api/generate/openai/route.ts and src/app/api/generate/gemini/route.ts)

Both routes keep the same module-level Map from instructionHash to
instruction and run the same two lines per request: insert when both fields
are truthy and the hash is absent, then read the system prompt from the map
with fallback to the request instruction and then the empty string.  The Map
is an association list whose keys stay unique because insertion is guarded by
absence. -/

/-- The guarded insertion: when the request carries a truthy instruction and
a truthy instructionHash (a JS string is truthy when present and non-empty)
that is not yet cached, the pair is stored. -/
def instructionCacheInsert (cache : List (String × String))
    (instruction instructionHash : Option String) : List (String × String) :=
  if instruction.getD "" ≠ "" ∧ instructionHash.getD "" ≠ ""
      ∧ cache.lookup (instructionHash.getD "") = none
  then (instructionHash.getD "", instruction.getD "") :: cache
  else cache

/-- The system prompt line: the cached instruction of the request hash when
present, else the request instruction, else the empty string. -/
def instructionCacheSys (cache2 : List (String × String))
    (instruction instructionHash : Option String) : String :=
  match cache2.lookup (instructionHash.getD "") with
  | some v => v
  | none => instruction.getD ""

/-- One request through the cache code of a provider route: the updated cache
and the system prompt the route sends to the provider. -/
def instructionCacheStep (cache : List (String × String))
    (instruction instructionHash : Option String) :
    List (String × String) × String :=
  (instructionCacheInsert cache instruction instructionHash,
    instructionCacheSys (instructionCacheInsert cache instruction instructionHash)
      instruction instructionHash)

/-- A sequence of requests folded through the cache. -/
def instructionCacheRun (cache : List (String × String))
    (reqs : List (Option String × Option String)) : List (String × String) :=
  reqs.foldl (fun c r => (instructionCacheStep c r.1 r.2).1) cache

lemma cacheStep_preserves (cache : List (String × String))
    (instruction instructionHash : Option String) (hKey v : String)
    (hv : cache.lookup hKey = some v) :
    (instructionCacheStep cache instruction instructionHash).1.lookup hKey
      = some v := by
  show (instructionCacheInsert cache instruction instructionHash).lookup hKey
    = some v
  unfold instructionCacheInsert
  split
  · next hcond =>
    have hne : (hKey == instructionHash.getD "") = false := by
      rw [beq_eq_false_iff_ne]
      intro he
      rw [he, hcond.2.2] at hv
      exact Option.noConfusion hv
    rw [List.lookup_cons, hne]
    exact hv
  · exact hv

lemma cacheRun_preserves :
    ∀ (reqs : List (Option String × Option String))
      (cache : List (String × String)) (hKey v : String),
      cache.lookup hKey = some v →
      (instructionCacheRun cache reqs).lookup hKey = some v := by
  intro reqs
  induction reqs with
  | nil => intro cache hKey v hv; exact hv
  | cons r rest ih =>
    intro cache hKey v hv
    exact ih _ hKey v (cacheStep_preserves cache r.1 r.2 hKey v hv)

/-- C6: a request carrying a truthy instruction and a truthy hash absent from
the cache inserts the pair; a cached hash is never overwritten, also across
whole request sequences; a request whose hash is cached uses the cached
instruction text as the system prompt; and when the hash is not cached even
after the insertion, the prompt falls back to the request instruction and
then to the empty string. -/
theorem c6_instruction_cache (cache : List (String × String)) :
    (∀ i h, i ≠ "" → h ≠ "" → cache.lookup h = none →
      (instructionCacheStep cache (some i) (some h)).1.lookup h = some i) ∧
    (∀ instruction instructionHash hKey v, cache.lookup hKey = some v →
      (instructionCacheStep cache instruction instructionHash).1.lookup hKey
        = some v) ∧
    (∀ reqs hKey v, cache.lookup hKey = some v →
      (instructionCacheRun cache reqs).lookup hKey = some v) ∧
    (∀ instruction h v, cache.lookup h = some v →
      (instructionCacheStep cache instruction (some h)).2 = v) ∧
    (∀ instruction instructionHash,
      (instructionCacheStep cache instruction instructionHash).1.lookup
        (instructionHash.getD "") = none →
      (instructionCacheStep cache instruction instructionHash).2
        = instruction.getD "") := by
  refine ⟨?_, ?_, ?_, ?_, ?_⟩
  · intro i h hi hh habs
    show (instructionCacheInsert cache (some i) (some h)).lookup h = some i
    unfold instructionCacheInsert
    rw [if_pos (show (some i).getD "" ≠ "" ∧ (some h).getD "" ≠ ""
        ∧ cache.lookup ((some h).getD "") = none from ⟨hi, hh, habs⟩)]
    show List.lookup h ((h, i) :: cache) = some i
    rw [List.lookup_cons, beq_self_eq_true h]
  · intro instruction instructionHash hKey v hv
    exact cacheStep_preserves cache instruction instructionHash hKey v hv
  · intro reqs hKey v hv
    exact cacheRun_preserves reqs cache hKey v hv
  · intro instruction h v hv
    have hsame : (instructionCacheInsert cache instruction (some h)).lookup h
        = some v := by
      unfold instructionCacheInsert
      split
      · next hcond =>
        have h0 : List.lookup h cache = none := hcond.2.2
        rw [h0] at hv
        exact Option.noConfusion hv
      · exact hv
    show instructionCacheSys (instructionCacheInsert cache instruction (some h))
      instruction (some h) = v
    unfold instructionCacheSys
    show (match (instructionCacheInsert cache instruction (some h)).lookup h with
      | some v => v
      | none => instruction.getD "") = v
    rw [hsame]
  · intro instruction instructionHash habs
    replace habs : (instructionCacheInsert cache instruction
        instructionHash).lookup (instructionHash.getD "") = none := habs
    show instructionCacheSys
      (instructionCacheInsert cache instruction instructionHash)
      instruction instructionHash = instruction.getD ""
    unfold instructionCacheSys
    rw [habs]

theorem c6_instruction_cache_witness :
    (instructionCacheStep [] (some "You are a metadata generator.")
      (some "hash1")).1.lookup "hash1" = some "You are a metadata generator." :=
  (c6_instruction_cache []).1 "You are a metadata generator." "hash1"
    (by decide) (by decide) rfl

/-! ## CSV export (src/lib/csv.ts)

Papa.unparse with the quotes option set is modelled directly: every field,
header fields included, is wrapped in double quotes with inner double quotes
doubled, fields are joined with commas and records with CRLF.  The repository
test suite pins this behaviour down (escaping a quote yields a doubled
quote). -/

inductive Agency where
  | adobe | shutterstock | vecteezy | freepik | dreamstime

/-- The value of a metadata column: it.meta?.title or the empty string. -/
def metaTitle (it : ItemMetaBox) : String := (it.meta.map MetaOutput.title).getD ""

def metaDescription (it : ItemMetaBox) : String :=
  (it.meta.map MetaOutput.description).getD ""

def metaKeywords (it : ItemMetaBox) : String :=
  (it.meta.map MetaOutput.keywords).getD ""

/-- The whitespace class of the JS regexes used by the exporter. -/
def jsWhitespace (c : Char) : Bool :=
  (c == ' ') || (c == '\t') || (c == '\n') || (c == '\r') || (c == '\x0b')
    || (c == '\x0c') || (c == ' ')

/-- Character-level model of replacing every comma-plus-whitespace-run with a
bare comma (the keyword transform of the vecteezy, freepik and dreamstime
exporters): whitespace directly after a comma is dropped. -/
def stripGo (afterComma : Bool) : List Char → List Char
  | [] => []
  | c :: rest =>
    if afterComma && jsWhitespace c then stripGo true rest
    else if c = ',' then ',' :: stripGo true rest
    else c :: stripGo false rest

def stripCommaSpaces (s : String) : String := String.mk (stripGo false s.data)

/-- The escaping Papa applies inside a quoted field: every double quote is
doubled. -/
def escListQuotes (l : List Char) : List Char :=
  l.foldr (fun c acc => if c = '"' then '"' :: '"' :: acc else c :: acc) []

def escapeQuotes (s : String) : String := String.mk (escListQuotes s.data)

def papaQuoteField (f : String) : String := "\"" ++ escapeQuotes f ++ "\""

def papaRow (fields : List String) : String :=
  String.intercalate "," (fields.map papaQuoteField)

/-- Model of Papa.unparse with quotes set and no columns config: on an empty
input array it returns the empty string (the header names derive from the
keys of the first object, so no row exists to take them from); otherwise the
header row followed by the data rows, CRLF-separated, every field quoted. -/
def papaUnparse (header : List String) (rows : List (List String)) : String :=
  match rows with
  | [] => ""
  | _ => String.intercalate "\r\n" (papaRow header :: rows.map papaRow)

/-- Embeds adobeCSV from src/lib/csv.ts: Filename, Title, Keywords and an
always-empty optional Category column. -/
def adobeCSV (items : List ItemMetaBox) : String :=
  papaUnparse ["Filename", "Title", "Keywords", "Category"]
    (items.map fun it => [it.filename, metaTitle it, metaKeywords it, ""])

/-- Embeds shutterstockCSV from src/lib/csv.ts. -/
def shutterstockCSV (items : List ItemMetaBox) : String :=
  papaUnparse ["Filename", "Title", "Description", "Keywords"]
    (items.map fun it =>
      [it.filename, metaTitle it, metaDescription it, metaKeywords it])

/-- Embeds vecteezyCSV from src/lib/csv.ts: keywords lose the spaces that
follow commas. -/
def vecteezyCSV (items : List ItemMetaBox) : String :=
  papaUnparse ["Filename", "Title", "Description", "Keywords"]
    (items.map fun it =>
      [it.filename, metaTitle it, metaDescription it,
        stripCommaSpaces (metaKeywords it)])

/-- Embeds freepikCSV from src/lib/csv.ts. -/
def freepikCSV (items : List ItemMetaBox) : String :=
  papaUnparse ["filename", "title", "keywords"]
    (items.map fun it =>
      [it.filename, metaTitle it, stripCommaSpaces (metaKeywords it)])

/-- Embeds dreamstimeCSV from src/lib/csv.ts. -/
def dreamstimeCSV (items : List ItemMetaBox) : String :=
  papaUnparse ["filename", "description", "keywords"]
    (items.map fun it =>
      [it.filename, metaDescription it, stripCommaSpaces (metaKeywords it)])

/-- Embeds exportCSV from src/lib/csv.ts: dispatch on the agency. -/
def exportCSV (agency : Agency) (rows : List ItemMetaBox) : String :=
  match agency with
  | .adobe => adobeCSV rows
  | .shutterstock => shutterstockCSV rows
  | .vecteezy => vecteezyCSV rows
  | .freepik => freepikCSV rows
  | .dreamstime => dreamstimeCSV rows

/-- The header row of each agency, for the shape theorem. -/
def agencyHeader : Agency → List String
  | .adobe => ["Filename", "Title", "Keywords", "Category"]
  | .shutterstock => ["Filename", "Title", "Description", "Keywords"]
  | .vecteezy => ["Filename", "Title", "Description", "Keywords"]
  | .freepik => ["filename", "title", "keywords"]
  | .dreamstime => ["filename", "description", "keywords"]

/-- The row of one item in each agency layout, for the shape theorem. -/
def agencyFields : Agency → ItemMetaBox → List String
  | .adobe => fun it => [it.filename, metaTitle it, metaKeywords it, ""]
  | .shutterstock => fun it =>
      [it.filename, metaTitle it, metaDescription it, metaKeywords it]
  | .vecteezy => fun it =>
      [it.filename, metaTitle it, metaDescription it,
        stripCommaSpaces (metaKeywords it)]
  | .freepik => fun it =>
      [it.filename, metaTitle it, stripCommaSpaces (metaKeywords it)]
  | .dreamstime => fun it =>
      [it.filename, metaDescription it, stripCommaSpaces (metaKeywords it)]

def agencyData (a : Agency) (items : List ItemMetaBox) : List (List String) :=
  items.map (agencyFields a)

lemma escListQuotes_append (l1 l2 : List Char) :
    escListQuotes (l1 ++ l2) = escListQuotes l1 ++ escListQuotes l2 := by
  induction l1 with
  | nil => rfl
  | cons c rest ih =>
    unfold escListQuotes at ih ⊢
    simp only [List.cons_append, List.foldr_cons]
    rw [ih]
    by_cases hc : c = '"' <;> simp [hc]

/-- C7 counterexample: on an empty item list the code returns the empty
string (Papa.unparse derives headers from the first object of the data array
and yields the empty string when there is none), not a lone header row as the
claim states. -/
theorem c7_counterexample :
    exportCSV Agency.adobe [] = "" ∧
    exportCSV Agency.adobe []
      ≠ String.intercalate "\r\n"
          (papaRow (agencyHeader Agency.adobe)
            :: (agencyData Agency.adobe []).map papaRow) := by
  refine ⟨rfl, ?_⟩
  decide

/-- C7 (amended): for every agency and every non-empty item list, the
exported CSV is the agency header row followed by exactly one row per item in
input order, rows obtained by mapping the agency field layout over the items;
on an empty item list the export is the empty string; a row of an item
without metadata is its filename followed by empty strings; and every field
of every row is enclosed in double quotes with inner double quotes
doubled. -/
theorem c7_exportCSV_shape (a : Agency) (items : List ItemMetaBox) :
    (items ≠ [] →
      exportCSV a items
        = String.intercalate "\r\n"
            (papaRow (agencyHeader a) :: (agencyData a items).map papaRow)) ∧
    exportCSV a [] = "" ∧
    (agencyData a items).length = items.length ∧
    (∀ i, (agencyData a items).get? i = (items.get? i).map (agencyFields a)) ∧
    (∀ it, it.meta = none →
      agencyFields a it
        = it.filename :: List.replicate ((agencyHeader a).length - 1) "") ∧
    (∀ fields, papaRow fields
      = String.intercalate ","
          (fields.map (fun f => "\"" ++ escapeQuotes f ++ "\""))) ∧
    (∀ s t, escapeQuotes (s ++ t) = escapeQuotes s ++ escapeQuotes t) ∧
    escapeQuotes "\"" = "\"\"" ∧
    (∀ c : Char, c ≠ '"' → escapeQuotes (String.mk [c]) = String.mk [c]) := by
  refine ⟨?_, ?_, ?_, ?_, ?_, ?_, ?_, ?_, ?_⟩
  · intro hne
    match items with
    | [] => exact absurd rfl hne
    | it :: rest => cases a <;> rfl
  · cases a <;> rfl
  · exact List.length_map _ _
  · intro i
    exact List.get?_map _ _ _
  · intro it hmeta
    cases a <;>
      simp [agencyFields, agencyHeader, metaTitle, metaDescription,
        metaKeywords, stripCommaSpaces, stripGo, hmeta, List.replicate]
  · intro fields
    rfl
  · intro s t
    unfold escapeQuotes
    rw [String.data_append, escListQuotes_append]
    rfl
  · decide
  · intro c hc
    unfold escapeQuotes escListQuotes
    simp [hc]

theorem c7_exportCSV_shape_witness :
    exportCSV Agency.adobe
        [{ id := "i", filename := "f.jpg", fileType := .photo, createdAt := 0
           thumbDataUrl := none, meta := none, error := some "boom" }]
      = String.intercalate "\r\n"
          (papaRow (agencyHeader Agency.adobe)
            :: (agencyData Agency.adobe
                [{ id := "i", filename := "f.jpg", fileType := .photo
                   createdAt := 0, thumbDataUrl := none, meta := none
                   error := some "boom" }]).map papaRow) :=
  (c7_exportCSV_shape Agency.adobe
    [{ id := "i", filename := "f.jpg", fileType := .photo, createdAt := 0
       thumbDataUrl := none, meta := none, error := some "boom" }]).1
    (by decide)

end MetaGen
